import Mathlib

/-!
Verification of the TurboHTTP request core: cookie parsing, cookie
signing/unsigning, client/proxy IP resolution, method and URL
normalization, lazy body materialization, and the middleware chain.

Strings are modelled as `List Char`; JavaScript string primitives
(`split`, `trim`, `slice`, destructuring of the split result) are given
faithful Lean counterparts on `List Char`.
-/

namespace Turbo

/-- JS `s.split(c)` for a one-character separator: splits on every
occurrence, keeping empty pieces; `''.split(c)` is `['']`. -/
def splitOnChar (c : Char) : List Char → List (List Char)
  | [] => [[]]
  | x :: xs =>
    if x = c then [] :: splitOnChar c xs
    else
      match splitOnChar c xs with
      | [] => [[x]]
      | h :: t => (x :: h) :: t

/-- Split a list at the first occurrence of `c`: `none` when `c` is absent,
otherwise the pieces strictly before and strictly after that occurrence. -/
def splitFirst (c : Char) : List Char → Option (List Char × List Char)
  | [] => none
  | x :: xs =>
    if x = c then some ([], xs)
    else
      match splitFirst c xs with
      | none => none
      | some (a, b) => some (x :: a, b)

/-- JS `s.trim()` on the ASCII whitespace actually exercised by cookie
headers (space, tab, CR, LF). -/
def trim (s : List Char) : List Char :=
  ((s.dropWhile Char.isWhitespace).reverse.dropWhile Char.isWhitespace).reverse

/-- JS `parts.join(c)` for a one-character separator. -/
def joinWith (c : Char) : List (List Char) → List Char
  | [] => []
  | [x] => x
  | x :: y :: xs => x ++ c :: joinWith c (y :: xs)

/-- JS `obj[k] = v` on a plain object used as a map: overwrite the value in
place when the key exists, otherwise append the new entry. -/
def setEntry (m : List (List Char × List Char)) (k v : List Char) :
    List (List Char × List Char) :=
  match m with
  | [] => [(k, v)]
  | (k0, v0) :: rest => if k0 = k then (k, v) :: rest else (k0, v0) :: setEntry rest k v

/-- Embeds `Request.#parseCookies` from `src/server/request.ts`: early-return on a
falsy header, split on `;`, trim each pair, split the trimmed pair on `=`,
destructure into the head `name` and the remainder `value`, keep the pair
when `name` is truthy and `value` is a non-empty array, and store
`value.join('=')`. -/
def parseCookiesReq (cookieHeader : List Char) : List (List Char × List Char) :=
  if cookieHeader = [] then []
  else
    (splitOnChar ';' cookieHeader).foldl
      (fun cookies pair =>
        match splitOnChar '=' (trim pair) with
        | [] => cookies
        | name :: value =>
          if name ≠ [] ∧ value ≠ [] then
            setEntry cookies name (joinWith '=' value)
          else cookies)
      []

/-- Embeds `parseCookies` from `src/utils/parseCookies.ts`: split on `;`, split the
raw pair on `=`, trim every piece, destructure the first two pieces into
`name` and `value`, keep the pair when both are truthy (`value` is `undefined`
when no `=` was present, and falsy when empty). -/
def parseCookiesUtil (cookieHeader : List Char) : List (List Char × List Char) :=
  (splitOnChar ';' cookieHeader).foldl
    (fun cookies cookie =>
      match (splitOnChar '=' cookie).map trim with
      | name :: value :: _ =>
        if name ≠ [] ∧ value ≠ [] then setEntry cookies name value else cookies
      | _ => cookies)
    []

/-- The cookie-parsing procedure exactly as the specification sentence
words it: split on `;`, split each segment on the first `=`, trim
surrounding whitespace from the name and from the value separately, keep
the segment when the trimmed name is non-empty and an `=` was present. -/
def parseCookiesClaimed (cookieHeader : List Char) : List (List Char × List Char) :=
  (splitOnChar ';' cookieHeader).foldl
    (fun cookies seg =>
      match splitFirst '=' seg with
      | none => cookies
      | some (n, v) =>
        if trim n ≠ [] then setEntry cookies (trim n) (trim v) else cookies)
    []

/-- The amended cookie-parsing description: split on `;`, trim each segment
as a whole (so whitespace adjacent to the `=` stays inside the name or the
value), split the trimmed segment on the first `=`, keep the segment when
its name part is non-empty and an `=` was present. -/
def parseCookiesAmended (cookieHeader : List Char) : List (List Char × List Char) :=
  (splitOnChar ';' cookieHeader).foldl
    (fun cookies seg =>
      match splitFirst '=' (trim seg) with
      | none => cookies
      | some (n, v) =>
        if n ≠ [] then setEntry cookies n v else cookies)
    []

/-- Lowercase hexadecimal digit for a value below 16 (JS `digest('hex')`
alphabet). -/
def hexChar (n : Nat) : Char :=
  match n with
  | 0 => '0' | 1 => '1' | 2 => '2' | 3 => '3' | 4 => '4'
  | 5 => '5' | 6 => '6' | 7 => '7' | 8 => '8' | 9 => '9'
  | 10 => 'a' | 11 => 'b' | 12 => 'c' | 13 => 'd' | 14 => 'e'
  | _ => 'f'

/-- Fixed-width lowercase-hex rendering, most significant digit first. -/
def toHexFixed : Nat → Nat → List Char
  | 0, _ => []
  | k + 1, n => toHexFixed k (n / 16) ++ [hexChar (n % 16)]

/-- Modelled from the spec: `Request.#createHmac` delegates to the external
`node:crypto` `createHmac('sha256', secret).update(value).digest('hex')`,
whose implementation is outside this repository. The model is a
deterministic keyed digest rendered as 64 lowercase hexadecimal characters;
the development relies only on determinism and on the hex output alphabet,
never on any other property of SHA-256. -/
def createHmac (secret value : List Char) : List Char :=
  toHexFixed 64
    ((secret.foldl (fun a c => a * 65599 + c.toNat + 1) 5381 * 1000003 +
      value.foldl (fun a c => a * 65599 + c.toNat + 1) 5381) % 2 ^ 256)

/-- Embeds `Request.signCookie`: `` `s:${value}.${hmac}` ``. -/
def signCookie (value secret : List Char) : List Char :=
  's' :: ':' :: value ++ '.' :: createHmac secret value

/-- Embeds `Request.unsignCookie`: drop the first two characters (`slice(2)`),
split the remainder on `.`, destructure into the first piece `value` and the
second piece `hmac` (`undefined` — here `none` — when no `.` is present),
recompute the digest of `value` and compare; `false` (here `none`) on
mismatch. JS compares a string against `undefined` as unequal. -/
def unsignCookie (signedValue secret : List Char) : Option (List Char) :=
  match splitOnChar '.' (signedValue.drop 2) with
  | value :: hmac :: _ => if createHmac secret value = hmac then some value else none
  | _ => none

/-- The value piece `unsignCookie` recovers from its input before checking
the digest: the first `.`-separated piece of the input with its first two
characters removed. -/
def embeddedValue (signedValue : List Char) : List Char :=
  (splitOnChar '.' (signedValue.drop 2)).headD []

/-- The digest piece `unsignCookie` compares against: the second
`.`-separated piece of the input with its first two characters removed,
`none` when the remainder contains no `.`. -/
def suppliedHmac (signedValue : List Char) : Option (List Char) :=
  (splitOnChar '.' (signedValue.drop 2)).tail.head?

/-- The connection data `getClientIp`/`getProxyIp` consult: the
`x-forwarded-for` header (absent, or present with a string value) and
`socket.remoteAddress` (possibly absent). -/
structure ConnInfo where
  xForwardedFor : Option (List Char)
  remoteAddress : Option (List Char)
  deriving DecidableEq

/-- JS truthiness of `this.#headers['x-forwarded-for']`: `undefined` and the
empty string are falsy. -/
def xffTruthy (c : ConnInfo) : Bool :=
  match c.xForwardedFor with
  | some v => !v.isEmpty
  | none => false

/-- Embeds `Request.getClientIp`: when the `x-forwarded-for` lookup is truthy,
the first comma-separated entry of it, trimmed; otherwise
`socket.remoteAddress || ''`. -/
def getClientIp (c : ConnInfo) : List Char :=
  if xffTruthy c then
    trim ((splitOnChar ',' (c.xForwardedFor.getD [])).headD [])
  else c.remoteAddress.getD []

/-- Embeds `Request.getProxyIp`: when the `x-forwarded-for` lookup is truthy,
`socket.remoteAddress || ''`; otherwise the empty string. -/
def getProxyIp (c : ConnInfo) : List Char :=
  if xffTruthy c then c.remoteAddress.getD [] else []

/-- Embeds `Request.#parseMethod`: `method?.toUpperCase() || ''`. Uppercasing is
modelled on the ASCII letters HTTP methods use. -/
def parseMethod (method : Option (List Char)) : List Char :=
  match method with
  | none => []
  | some m => m.map Char.toUpper

/-- The part of the URL string a WHATWG parser turns into the pathname and
authority: everything before the first `?` (query) or `#` (fragment),
whichever comes first. -/
def requestTarget (url : List Char) : List Char :=
  (url.takeWhile (fun c => c ≠ '#')).takeWhile (fun c => c ≠ '?')

/-- Pathname of an absolute `scheme://authority...` target: everything
from the first `/` after the authority, `/` when there is none. -/
def pathAbs (target : List Char) : List Char :=
  match splitFirst ':' target with
  | some (_, rest) =>
    if (rest.drop 2).dropWhile (fun c => c ≠ '/') = [] then ['/']
    else (rest.drop 2).dropWhile (fun c => c ≠ '/')
  | none => ['/']

/-- Pathname of a relative target resolved against the root path of the
`http://host` base. -/
def pathRel (target : List Char) : List Char :=
  if target = [] then ['/']
  else if target.headD ' ' = '/' then target else '/' :: target

/-- Modelled from the spec: `Request.#parseUrl` obtains the pathname from
the external WHATWG `URL` class (`new URL(url, http-scheme base).pathname`),
whose implementation is outside this repository. The model covers the
pathname extraction the spec describes — the path component never includes
the query part, which starts at the first `?` (a `#` starts the fragment
even earlier); an absolute `http(s)://authority...` input takes its path
from the first `/` after the authority (`/` when there is none), and a
relative input is resolved against the base's root path. Dot-segment
normalization and percent-encoding are omitted: neither can introduce a
`?` into the pathname. -/
def urlPathname (url host : List Char) : List Char :=
  if List.isPrefixOf ['h', 't', 't', 'p', ':', '/', '/'] (requestTarget url) ∨
      List.isPrefixOf ['h', 't', 't', 'p', 's', ':', '/', '/'] (requestTarget url) then
    pathAbs (requestTarget url)
  else
    pathRel (requestTarget url)

/-- Cache and stream-consumption state backing `Request.#body` and
`Request.#getRawBody`: the write-once body cache, and a count of how many
times the stream has been consumed. -/
structure BodyState where
  body : Option (List Nat)
  streamReads : Nat
  deriving DecidableEq

/-- Embeds `Request.#getRawBody`: concatenate the stream's chunks in arrival
order (`Buffer.concat`). -/
def getRawBody (chunks : List (List Nat)) : List Nat :=
  chunks.flatten

/-- Embeds `Request.parseBodyAsBuffer`: return the cached body when present
(a Buffer is always truthy), otherwise consume the stream, cache the
concatenation, and return it. Returns the bytes and the updated state. -/
def parseBodyAsBuffer (st : BodyState) (chunks : List (List Nat)) :
    List Nat × BodyState :=
  match st.body with
  | some b => (b, st)
  | none => (getRawBody chunks, ⟨some (getRawBody chunks), st.streamReads + 1⟩)

/-- Modelled from the spec: what a middleware does after mutating the
shared request — invoke its continuation, silently withhold it, or throw
an error (`src/server/request.ts` declares the `Middleware` type and the
`#middlewares` field, but the bodies of `use` and `executeMiddlewares` are
not among the sources; spec §4.4 describes their behaviour). -/
inductive MWAct where
  | callNext
  | halt
  | throwErr (e : Nat)
  deriving DecidableEq

/-- Modelled from the spec: a middleware mutates the shared request it is
handed and then either calls its continuation, withholds it, or throws. -/
structure MW (Req : Type) where
  mutate : Req → Req
  act : MWAct

/-- Modelled from the spec: how one `executeMiddlewares(terminal)` run
ends — the terminal ran (returning its result), the chain halted silently
at some middleware, or an error propagated to the caller. -/
inductive MWOutcome (Req : Type) where
  | completed (r : Req)
  | halted (r : Req)
  | failed (e : Nat) (r : Req)
  deriving DecidableEq

/-- Modelled from the spec: `use(middleware)` is a pure append to the
ordered middleware list. -/
def use {Req : Type} (mws : List (MW Req)) (m : MW Req) : List (MW Req) :=
  mws ++ [m]

/-- Modelled from the spec: run the middlewares from position `i`, threading
the shared request; record the index of every middleware that actually
runs. The terminal runs only when the list is exhausted. -/
def execFrom {Req : Type} (terminal : Req → Req) :
    List (MW Req) → Req → Nat → List Nat × MWOutcome Req
  | [], r, _ => ([], .completed (terminal r))
  | m :: rest, r, i =>
    match m.act with
    | .callNext =>
      let (tr, out) := execFrom terminal rest (m.mutate r) (i + 1)
      (i :: tr, out)
    | .halt => ([i], .halted (m.mutate r))
    | .throwErr e => ([i], .failed e (m.mutate r))

/-- Modelled from the spec: `executeMiddlewares(terminal)` runs the
registered middlewares in order from the first. -/
def executeMiddlewares {Req : Type} (terminal : Req → Req) (mws : List (MW Req))
    (r : Req) : List Nat × MWOutcome Req :=
  execFrom terminal mws r 0

/-! ### Lemmas about the string primitives -/

theorem splitOnChar_ne_nil (c : Char) (s : List Char) : splitOnChar c s ≠ [] := by
  induction s with
  | nil => simp [splitOnChar]
  | cons x xs ih =>
    simp only [splitOnChar]
    by_cases hx : x = c
    · simp [hx]
    · simp only [if_neg hx]
      rcases hr : splitOnChar c xs with _ | ⟨h, t⟩ <;> simp

theorem splitOnChar_eq_splitFirst (c : Char) (s : List Char) :
    splitOnChar c s =
      match splitFirst c s with
      | none => [s]
      | some (a, b) => a :: splitOnChar c b := by
  induction s with
  | nil => simp [splitOnChar, splitFirst]
  | cons x xs ih =>
    by_cases hx : x = c
    · simp [splitOnChar, splitFirst, hx]
    · simp only [splitOnChar, splitFirst, if_neg hx]
      rcases hf : splitFirst c xs with _ | ⟨a, b⟩
      · rw [hf] at ih
        simp only at ih
        simp [ih]
      · rw [hf] at ih
        simp only at ih
        simp [ih]

theorem splitFirst_none_of_not_mem {c : Char} {s : List Char} (h : c ∉ s) :
    splitFirst c s = none := by
  induction s with
  | nil => simp [splitFirst]
  | cons x xs ih =>
    simp only [List.mem_cons, not_or] at h
    have hx : x ≠ c := fun hxc => h.1 hxc.symm
    simp [splitFirst, hx, ih h.2]

theorem splitOnChar_of_not_mem {c : Char} {s : List Char} (h : c ∉ s) :
    splitOnChar c s = [s] := by
  rw [splitOnChar_eq_splitFirst, splitFirst_none_of_not_mem h]

theorem splitFirst_append {c : Char} {a : List Char} (b : List Char) (h : c ∉ a) :
    splitFirst c (a ++ c :: b) = some (a, b) := by
  induction a with
  | nil => simp [splitFirst]
  | cons x xs ih =>
    simp only [List.mem_cons, not_or] at h
    have hx : x ≠ c := fun hxc => h.1 hxc.symm
    simp [splitFirst, hx, ih h.2]

theorem splitOnChar_append {c : Char} {a : List Char} (b : List Char) (h : c ∉ a) :
    splitOnChar c (a ++ c :: b) = a :: splitOnChar c b := by
  rw [splitOnChar_eq_splitFirst, splitFirst_append b h]

theorem joinWith_splitOnChar (c : Char) (s : List Char) :
    joinWith c (splitOnChar c s) = s := by
  induction s with
  | nil => simp [splitOnChar, joinWith]
  | cons x xs ih =>
    by_cases hx : x = c
    · subst hx
      simp only [splitOnChar, if_pos rfl]
      rcases hr : splitOnChar x xs with _ | ⟨h, t⟩
      · exact absurd hr (splitOnChar_ne_nil x xs)
      · rw [hr] at ih
        simp [joinWith, ih]
    · simp only [splitOnChar, if_neg hx]
      rcases hr : splitOnChar c xs with _ | ⟨h, t⟩
      · exact absurd hr (splitOnChar_ne_nil c xs)
      · rw [hr] at ih
        rcases t with _ | ⟨u, t2⟩
        · simpa [joinWith] using ih
        · simp only [joinWith] at ih ⊢
          simp [ih]

theorem splitFirst_decomp {c : Char} {s a b : List Char}
    (h : splitFirst c s = some (a, b)) : s = a ++ c :: b ∧ c ∉ a := by
  induction s generalizing a b with
  | nil => simp [splitFirst] at h
  | cons x xs ih =>
    by_cases hx : x = c
    · subst hx
      simp only [splitFirst, if_pos rfl] at h
      obtain ⟨rfl, rfl⟩ := Prod.mk.inj (Option.some.inj h)
      simp
    · simp only [splitFirst, if_neg hx] at h
      rcases hf : splitFirst c xs with _ | ⟨a2, b2⟩
      · rw [hf] at h; simp at h
      · rw [hf] at h
        obtain ⟨rfl, rfl⟩ := Prod.mk.inj (Option.some.inj h)
        obtain ⟨hs, hm⟩ := ih hf
        refine ⟨by simp [hs], ?_⟩
        simp only [List.mem_cons, not_or]
        exact ⟨fun hcx => hx hcx.symm, hm⟩

theorem dropWhile_eq_self_of {p : Char → Bool} {s : List Char}
    (h : ∀ x ∈ s, p x = false) : s.dropWhile p = s := by
  cases s with
  | nil => rfl
  | cons x xs => simp [List.dropWhile_cons, h x (by simp)]

theorem trim_of_no_ws {s : List Char} (h : ∀ x ∈ s, x.isWhitespace = false) :
    trim s = s := by
  unfold trim
  rw [dropWhile_eq_self_of h, dropWhile_eq_self_of (by simpa using h),
    List.reverse_reverse]

/-! ### Cookie parsing (C1, C5) -/

theorem cookieStepReq_eq_amended (cookies : List (List Char × List Char))
    (pair : List Char) :
    (match splitOnChar '=' (trim pair) with
     | [] => cookies
     | name :: value =>
       if name ≠ [] ∧ value ≠ [] then setEntry cookies name (joinWith '=' value)
       else cookies) =
    (match splitFirst '=' (trim pair) with
     | none => cookies
     | some (n, v) => if n ≠ [] then setEntry cookies n v else cookies) := by
  rcases hf : splitFirst '=' (trim pair) with _ | ⟨n, v⟩
  · rw [splitOnChar_eq_splitFirst, hf]
    simp
  · rw [splitOnChar_eq_splitFirst, hf]
    simp only
    rw [joinWith_splitOnChar]
    by_cases hn : n = []
    · simp [hn]
    · simp [hn, splitOnChar_ne_nil '=' v]

/-- C1. The claim describes cookie parsing as trimming the name and the
value separately after splitting the segment on the first `=`; the code
(`Request.#parseCookies`) instead trims the segment as a whole before
splitting, so whitespace adjacent to the `=` survives inside the name and
the value. On the header `a =b` the code produces the entry `"a "` (with a
trailing space) `↦ "b"`, while the claimed procedure produces `"a" ↦ "b"`. -/
theorem c1_cookie_parsing_counterexample :
    parseCookiesReq ['a', ' ', '=', 'b'] = [(['a', ' '], ['b'])] ∧
    parseCookiesClaimed ['a', ' ', '=', 'b'] = [(['a'], ['b'])] ∧
    parseCookiesReq ['a', ' ', '=', 'b'] ≠
      parseCookiesClaimed ['a', ' ', '=', 'b'] := by
  decide

/-- C1 (amended). For every cookie header string, cookie parsing splits the
header on `;`, trims surrounding whitespace from each segment as a whole
(whitespace adjacent to the `=` stays inside the name or the value), splits
the trimmed segment on the first `=`, keeps every segment whose name is
non-empty and which contains an `=` (including segments with an empty
value such as `name=`), and silently drops all other segments; a segment
`a=b=c` yields `a ↦ b=c`, and the empty header yields the empty mapping. -/
theorem c1_cookie_parsing_amended (header : List Char) :
    parseCookiesReq header = parseCookiesAmended header ∧
    parseCookiesReq ['n', 'a', 'm', 'e', '='] = [(['n', 'a', 'm', 'e'], [])] ∧
    parseCookiesReq ['a', '=', 'b', '=', 'c'] = [(['a'], ['b', '=', 'c'])] ∧
    parseCookiesReq [] = [] := by
  refine ⟨?_, by decide, by decide, by decide⟩
  unfold parseCookiesReq parseCookiesAmended
  by_cases hh : header = []
  · simp [hh, splitOnChar, splitFirst, trim]
  · rw [if_neg hh]
    exact List.foldl_ext _ _ _ (fun a b _ => cookieStepReq_eq_amended a b)

/-- Cookie segments on which the two parser implementations were written to
agree: no whitespace, at most one `=`, and an `=` with a non-empty name on
its left only together with a non-empty value on its right. -/
def segSimple (seg : List Char) : Bool :=
  !seg.any Char.isWhitespace &&
  (match splitFirst '=' seg with
   | none => true
   | some (n, v) => !v.contains '=' && (n.isEmpty || !v.isEmpty))

/-- Cookie headers all of whose `;`-segments are simple. -/
def headerOK (h : List Char) : Bool := (splitOnChar ';' h).all segSimple

theorem not_mem_of_contains_eq_false {c : Char} {l : List Char}
    (h : l.contains c = false) : c ∉ l := by
  intro hm
  simp [hm] at h

theorem cookieStepUtil_eq_req {seg : List Char} (hs : segSimple seg = true)
    (cookies : List (List Char × List Char)) :
    (match (splitOnChar '=' seg).map trim with
     | name :: value :: _ =>
       if name ≠ [] ∧ value ≠ [] then setEntry cookies name value else cookies
     | _ => cookies) =
    (match splitOnChar '=' (trim seg) with
     | [] => cookies
     | name :: value =>
       if name ≠ [] ∧ value ≠ [] then setEntry cookies name (joinWith '=' value)
       else cookies) := by
  simp only [segSimple, Bool.and_eq_true, Bool.not_eq_true'] at hs
  obtain ⟨hws, hrest⟩ := hs
  have hnows : ∀ x ∈ seg, x.isWhitespace = false := by
    intro x hx
    by_contra hcon
    simp only [Bool.not_eq_false] at hcon
    exact absurd (List.any_eq_true.mpr ⟨x, hx, hcon⟩) (by simp [hws])
  rw [trim_of_no_ws hnows]
  rcases hf : splitFirst '=' seg with _ | ⟨n, v⟩
  · rw [splitOnChar_eq_splitFirst, hf]
    simp
  · rw [splitOnChar_eq_splitFirst, hf]
    dsimp only
    rw [hf] at hrest
    simp only [Bool.and_eq_true, Bool.not_eq_true'] at hrest
    obtain ⟨hveq, hnv⟩ := hrest
    obtain ⟨hdecomp, -⟩ := splitFirst_decomp hf
    have hvnomem : '=' ∉ v := not_mem_of_contains_eq_false hveq
    rw [splitOnChar_of_not_mem hvnomem]
    have hn_nows : ∀ x ∈ n, x.isWhitespace = false := by
      intro x hx
      exact hnows x (by rw [hdecomp]; simp [hx])
    have hv_nows : ∀ x ∈ v, x.isWhitespace = false := by
      intro x hx
      exact hnows x (by rw [hdecomp]; simp [hx])
    simp only [List.map, trim_of_no_ws hn_nows, trim_of_no_ws hv_nows]
    by_cases hn : n = []
    · simp [hn]
    · have hv : v ≠ [] := by
        rcases Bool.or_eq_true_iff.mp hnv with h1 | h1
        · exact absurd (List.isEmpty_iff.mp h1) hn
        · simpa [List.isEmpty_iff] using h1
      simp [hn, hv, joinWith]

/-- C5. The two cookie parsers are not identical on every header: on
`a=b=c` the `Request.#parseCookies` implementation keeps everything after
the first `=` (`a ↦ b=c`), while the `parseCookies` utility keeps only the
piece between the first and second `=` (`a ↦ b`); on `name=` the former
keeps `name ↦ ""` while the latter drops the segment. -/
theorem c5_parsers_counterexample :
    parseCookiesReq ['a', '=', 'b', '=', 'c'] = [(['a'], ['b', '=', 'c'])] ∧
    parseCookiesUtil ['a', '=', 'b', '=', 'c'] = [(['a'], ['b'])] ∧
    parseCookiesReq ['a', '=', 'b', '=', 'c'] ≠
      parseCookiesUtil ['a', '=', 'b', '=', 'c'] := by
  decide

/-- C5 (amended). The two cookie-parsing implementations —
`Request.#parseCookies` and the `parseCookies` utility the other `Request`
constructor calls — return the identical name-to-value mapping for every
cookie header whose `;`-segments contain no whitespace, contain at most
one `=`, and, when they contain an `=` with a non-empty name before it,
have a non-empty value after it. -/
theorem c5_parsers_agree_amended (header : List Char)
    (hok : headerOK header = true) :
    parseCookiesReq header = parseCookiesUtil header := by
  unfold parseCookiesReq parseCookiesUtil
  by_cases hh : header = []
  · simp [hh, splitOnChar, trim, splitFirst]
  · rw [if_neg hh]
    refine (List.foldl_ext _ _ _ (fun a seg hseg => ?_)).symm
    have hs : segSimple seg = true := by
      have := List.all_eq_true.mp hok
      exact this seg hseg
    exact cookieStepUtil_eq_req hs a

/-- C5 witness: a concrete well-formed header on which the amended
equivalence applies. -/
theorem c5_parsers_agree_amended_witness :
    parseCookiesReq ['a', '=', 'b', ';', 'c', '=', 'd'] =
      parseCookiesUtil ['a', '=', 'b', ';', 'c', '=', 'd'] :=
  c5_parsers_agree_amended ['a', '=', 'b', ';', 'c', '=', 'd'] (by decide)

/-! ### Cookie signing and unsigning (C3, C4, C10) -/

theorem hexChar_ne_dot (n : Nat) : hexChar n ≠ '.' := by
  unfold hexChar
  split <;> decide

theorem toHexFixed_no_dot (k n : Nat) : '.' ∉ toHexFixed k n := by
  induction k generalizing n with
  | zero => simp [toHexFixed]
  | succ k ih =>
    intro hm
    rcases List.mem_append.mp hm with h | h
    · exact ih _ h
    · exact hexChar_ne_dot _ (List.mem_singleton.mp h).symm

theorem createHmac_no_dot (secret value : List Char) :
    '.' ∉ createHmac secret value :=
  toHexFixed_no_dot 64 _

theorem unsign_of_prefixed {value : List Char} (c1 c2 : Char) (secret : List Char)
    (hdot : '.' ∉ value) :
    unsignCookie (c1 :: c2 :: (value ++ '.' :: createHmac secret value)) secret =
      some value := by
  unfold unsignCookie
  have hdrop : (c1 :: c2 :: (value ++ '.' :: createHmac secret value)).drop 2 =
      value ++ '.' :: createHmac secret value := rfl
  rw [hdrop, splitOnChar_append _ hdot,
    splitOnChar_of_not_mem (createHmac_no_dot secret value)]
  simp

/-- C3. For every secret and every alphanumeric value (in particular one
containing no `.`), `unsignCookie (signCookie value secret) secret`
recovers the value: the signed form is `s:` + value + `.` + hex digest, the
unsigner strips two characters, splits at the first `.` — which, because
neither the value nor the hex digest contains a `.`, separates exactly
value from digest — and the recomputed digest matches. -/
theorem c3_sign_unsign_roundtrip (value secret : List Char)
    (halnum : value.all Char.isAlphanum = true) :
    unsignCookie (signCookie value secret) secret = some value := by
  have hdot : '.' ∉ value := by
    intro hm
    have := List.all_eq_true.mp halnum _ hm
    simp [Char.isAlphanum, Char.isAlpha, Char.isUpper, Char.isLower,
      Char.isDigit] at this
  have h := @unsign_of_prefixed value 's' ':' secret hdot
  simpa [signCookie, List.cons_append] using h

/-- C3 witness: the round trip at a concrete alphanumeric value and
secret. -/
theorem c3_sign_unsign_roundtrip_witness :
    unsignCookie (signCookie ['v', 'a', 'l', '1'] ['s', 'e', 'c'])
      ['s', 'e', 'c'] = some ['v', 'a', 'l', '1'] :=
  c3_sign_unsign_roundtrip ['v', 'a', 'l', '1'] ['s', 'e', 'c'] (by decide)

/-- C4. `unsignCookie` is a total function returning an `Option` (never an
exception), and whenever the digest recomputed from the embedded value
differs from the digest supplied after the first `.` (including the case
where no `.` is present at all, so no digest is supplied), it returns the
failure indicator `none`. -/
theorem c4_unsign_mismatch_fails (s secret : List Char)
    (hmis : suppliedHmac s ≠ some (createHmac secret (embeddedValue s))) :
    unsignCookie s secret = none := by
  unfold unsignCookie
  unfold suppliedHmac embeddedValue at hmis
  rcases hl : splitOnChar '.' (s.drop 2) with _ | ⟨v, rest⟩
  · exact absurd hl (splitOnChar_ne_nil _ _)
  · rw [hl] at hmis
    rcases rest with _ | ⟨h0, t⟩
    · simp
    · simp only [List.headD, List.tail, List.head?] at hmis
      have hne : createHmac secret v ≠ h0 := by
        intro he
        exact hmis (by rw [he])
      simp [hne]

/-- C4 witness: an input whose remainder after the two stripped characters
contains no `.`, so no digest is supplied and the result is the failure
indicator. -/
theorem c4_unsign_mismatch_fails_witness :
    unsignCookie ['s', ':', 'a'] ['k'] = none :=
  c4_unsign_mismatch_fails ['s', ':', 'a'] ['k'] (by decide)

/-- C10. `unsignCookie` never checks for the `s:` marker: its result
depends only on its input with the first two characters removed, and for
any value without `.` prepending any two characters to
value + `.` + hex digest makes it succeed and return the value. -/
theorem c10_unsign_ignores_first_two :
    (∀ s t secret : List Char, 2 ≤ s.length → 2 ≤ t.length →
      s.drop 2 = t.drop 2 → unsignCookie s secret = unsignCookie t secret) ∧
    (∀ (c1 c2 : Char) (value secret : List Char), value.contains '.' = false →
      unsignCookie (c1 :: c2 :: (value ++ '.' :: createHmac secret value))
        secret = some value) := by
  constructor
  · intro s t secret hs ht hdrop
    unfold unsignCookie
    rw [hdrop]
  · intro c1 c2 value secret hc
    exact unsign_of_prefixed c1 c2 secret (not_mem_of_contains_eq_false hc)

/-- C10 witness: two inputs differing only in their first two characters
unsign identically, and a concrete forged two-character prefix is
accepted. -/
theorem c10_unsign_ignores_first_two_witness :
    unsignCookie ['s', ':', 'a', 'b'] ['k'] =
      unsignCookie ['x', 'y', 'a', 'b'] ['k'] ∧
    unsignCookie ('q' :: 'z' :: (['v'] ++ '.' :: createHmac ['k'] ['v']))
      ['k'] = some ['v'] :=
  ⟨c10_unsign_ignores_first_two.1 ['s', ':', 'a', 'b'] ['x', 'y', 'a', 'b'] ['k']
      (by decide) (by decide) (by decide),
    c10_unsign_ignores_first_two.2 'q' 'z' ['v'] ['k'] (by decide)⟩

/-! ### Client and proxy IP resolution (C7) -/

/-- C7. The claim reads the `x-forwarded-for` branch as taken whenever the
header is *present*, but the code tests JS truthiness, and a present but
empty header value is falsy: with `x-forwarded-for: ""` and peer address
`127` the code returns the peer address from `getClientIp` (the claim says
the trimmed first comma-entry of `""`, i.e. the empty string) and the empty
string from `getProxyIp` (the claim says the peer address). -/
theorem c7_ip_resolution_counterexample :
    (ConnInfo.mk (some []) (some ['1', '2', '7'])).xForwardedFor = some [] ∧
    getClientIp (ConnInfo.mk (some []) (some ['1', '2', '7'])) =
      ['1', '2', '7'] ∧
    trim ((splitOnChar ',' []).headD []) = [] ∧
    getProxyIp (ConnInfo.mk (some []) (some ['1', '2', '7'])) = [] ∧
    (['1', '2', '7'] : List Char) ≠ [] := by
  decide

/-- C7 (amended). If an `x-forwarded-for` header is present *with a
non-empty value*, `getClientIp()` returns that value's first
comma-separated entry with surrounding whitespace trimmed and
`getProxyIp()` returns the peer address (empty string if the peer address
is absent); if the header is absent or its value is empty, `getClientIp()`
returns the peer address (empty string if absent) and `getProxyIp()`
returns the empty string. -/
theorem c7_ip_resolution_amended (c : ConnInfo) :
    (∀ v, c.xForwardedFor = some v → v ≠ [] →
      getClientIp c = trim ((splitOnChar ',' v).headD []) ∧
      getProxyIp c = c.remoteAddress.getD []) ∧
    (c.xForwardedFor = none ∨ c.xForwardedFor = some [] →
      getClientIp c = c.remoteAddress.getD [] ∧ getProxyIp c = []) := by
  constructor
  · intro v hv hne
    have ht : xffTruthy c = true := by
      simp [xffTruthy, hv, List.isEmpty_iff, hne]
    simp [getClientIp, getProxyIp, ht, hv]
  · intro habs
    have ht : xffTruthy c = false := by
      rcases habs with h | h <;> simp [xffTruthy, h]
    simp [getClientIp, getProxyIp, ht]

/-- C7 witness: the amended description at a concrete connection with a
forwarding chain, and at a concrete connection without one. -/
theorem c7_ip_resolution_amended_witness :
    getClientIp (ConnInfo.mk (some ['9', ',', ' ', '8']) (some ['7'])) =
      trim ((splitOnChar ',' ['9', ',', ' ', '8']).headD []) ∧
    getProxyIp (ConnInfo.mk (some ['9', ',', ' ', '8']) (some ['7'])) =
      (some ['7']).getD [] ∧
    getClientIp (ConnInfo.mk none (some ['7'])) = (some ['7']).getD [] ∧
    getProxyIp (ConnInfo.mk none (some ['7'])) = [] := by
  obtain ⟨h1, h2⟩ :=
    (c7_ip_resolution_amended (ConnInfo.mk (some ['9', ',', ' ', '8'])
        (some ['7']))).1 ['9', ',', ' ', '8'] rfl (by decide)
  obtain ⟨h3, h4⟩ :=
    (c7_ip_resolution_amended (ConnInfo.mk none (some ['7']))).2 (Or.inl rfl)
  exact ⟨h1, h2, h3, h4⟩

/-! ### Request construction invariants (C9) -/

theorem contains_eq_false_of_not_mem {c : Char} {l : List Char} (h : c ∉ l) :
    l.contains c = false := by
  cases hc : l.contains c
  · rfl
  · obtain ⟨x, hx, hb⟩ := List.contains_iff_exists_mem_beq.mp hc
    have hcx : c = x := beq_iff_eq.mp hb
    subst hcx
    exact absurd hx h

theorem requestTarget_no_qmark (url : List Char) : '?' ∉ requestTarget url := by
  intro hm
  have := List.mem_takeWhile_imp hm
  simp at this

theorem pathAbs_no_qmark {t : List Char} (h : '?' ∉ t) : '?' ∉ pathAbs t := by
  unfold pathAbs
  rcases hf : splitFirst ':' t with _ | ⟨a, rest⟩
  · simp
  · obtain ⟨hdecomp, -⟩ := splitFirst_decomp hf
    have hrest : '?' ∉ rest := by
      intro hm
      exact h (by rw [hdecomp]; simp [hm])
    have hdrop : '?' ∉ rest.drop 2 := fun hm => hrest (List.mem_of_mem_drop hm)
    dsimp only
    split
    · simp
    · exact fun hm => hdrop ((List.dropWhile_sublist _).subset hm)

theorem pathRel_no_qmark {t : List Char} (h : '?' ∉ t) : '?' ∉ pathRel t := by
  unfold pathRel
  split
  · simp
  · split
    · exact h
    · simp only [List.mem_cons, not_or]
      exact ⟨by decide, fun hm => h hm⟩

theorem toUpper_not_lower (c : Char) : (Char.toUpper c).isLower = false := by
  unfold Char.toUpper
  simp only []
  by_cases h : c.toNat ≥ 97 ∧ c.toNat ≤ 122
  · rw [if_pos h]
    obtain ⟨h1, h2⟩ := h
    generalize hg : c.toNat = n at h1 h2
    interval_cases n <;> decide
  · rw [if_neg h]
    simp only [Char.isLower]
    have hval : c.val.toNat = c.toNat := rfl
    rcases Nat.lt_or_ge c.toNat 97 with hlt | hge
    · have hv : ¬ (97 ≤ c.val) := by
        intro hcon
        have h2 := UInt32.le_toNat_of_le (by decide : (97 : Nat) < UInt32.size) hcon
        omega
      simp [hv]
    · have h2 : ¬ (c.toNat ≤ 122) := fun hcon => h ⟨hge, hcon⟩
      have hv : ¬ (c.val ≤ 122) := by
        intro hcon
        have h3 := UInt32.toNat_le_of_le (by decide : (122 : Nat) < UInt32.size) hcon
        omega
      simp [hv]

/-- C9. For every raw method, URL and host, the constructed request
satisfies the invariants: the pathname contains no `?`, the method of a
transport that supplied none is the empty string, and a supplied method is
converted to uppercase and hence never contains a lowercase letter. -/
theorem c9_request_invariants (method url host : List Char) :
    (urlPathname url host).contains '?' = false ∧
    parseMethod none = [] ∧
    parseMethod (some method) = method.map Char.toUpper ∧
    (parseMethod (some method)).all (fun c => !c.isLower) = true := by
  refine ⟨?_, rfl, rfl, ?_⟩
  · apply contains_eq_false_of_not_mem
    unfold urlPathname
    by_cases habs :
        List.isPrefixOf ['h', 't', 't', 'p', ':', '/', '/'] (requestTarget url) ∨
        List.isPrefixOf ['h', 't', 't', 'p', 's', ':', '/', '/'] (requestTarget url)
    · rw [if_pos habs]
      exact pathAbs_no_qmark (requestTarget_no_qmark url)
    · rw [if_neg habs]
      exact pathRel_no_qmark (requestTarget_no_qmark url)
  · rw [List.all_eq_true]
    intro c hc
    obtain ⟨x, -, rfl⟩ := List.mem_map.mp hc
    simp [toUpper_not_lower]

/-! ### Body materialization (C6) -/

/-- C6. The body is materialized at most once: the first
`parseBodyAsBuffer()` call concatenates the stream's chunks in arrival
order into the write-once cache (one stream read), a second call — whatever
the stream would deliver by then — returns exactly the cached bytes with
the state unchanged (in particular no further stream read), and in general
any call on a state whose cache is populated returns the cache untouched. -/
theorem c6_body_materialized_once (chunks laterChunks : List (List Nat)) :
    (parseBodyAsBuffer ⟨none, 0⟩ chunks).1 = chunks.flatten ∧
    (parseBodyAsBuffer ⟨none, 0⟩ chunks).2 = ⟨some chunks.flatten, 1⟩ ∧
    parseBodyAsBuffer (parseBodyAsBuffer ⟨none, 0⟩ chunks).2 laterChunks =
      ((parseBodyAsBuffer ⟨none, 0⟩ chunks).1,
        (parseBodyAsBuffer ⟨none, 0⟩ chunks).2) ∧
    (∀ (st : BodyState) (b : List Nat) (more : List (List Nat)),
      st.body = some b → parseBodyAsBuffer st more = (b, st)) := by
  refine ⟨rfl, rfl, rfl, ?_⟩
  intro st b more hb
  unfold parseBodyAsBuffer
  rw [hb]

/-- C6 witness: a populated cache is returned untouched on a concrete
state and stream. -/
theorem c6_body_materialized_once_witness :
    parseBodyAsBuffer ⟨some [7], 1⟩ [[9]] = ([7], ⟨some [7], 1⟩) :=
  (c6_body_materialized_once [] []).2.2.2 ⟨some [7], 1⟩ [7] [[9]] rfl

/-! ### Middleware chain (C2, C8) -/

theorem foldl_use_eq {Req : Type} :
    ∀ (ms acc : List (MW Req)), List.foldl use acc ms = acc ++ ms := by
  intro ms
  induction ms with
  | nil => intro acc; simp
  | cons m rest ih =>
    intro acc
    simp only [List.foldl]
    rw [ih (use acc m)]
    simp [use]

theorem execFrom_all_next {Req : Type} (terminal : Req → Req) :
    ∀ (mws : List (MW Req)) (r : Req) (i : Nat),
      (∀ m ∈ mws, m.act = MWAct.callNext) →
      execFrom terminal mws r i =
        (List.range' i mws.length,
          MWOutcome.completed
            (terminal (List.foldl (fun s m => m.mutate s) r mws))) := by
  intro mws
  induction mws with
  | nil => intro r i _; simp [execFrom, List.range']
  | cons m rest ih =>
    intro r i hall
    have hm : m.act = MWAct.callNext := hall m (by simp)
    have hrest : ∀ p ∈ rest, p.act = MWAct.callNext :=
      fun p hp => hall p (by simp [hp])
    simp only [execFrom, hm]
    rw [ih (m.mutate r) (i + 1) hrest]
    simp [List.range', List.foldl]

theorem execFrom_halts {Req : Type} (terminal : Req → Req) (m : MW Req)
    (hm : m.act = MWAct.halt) :
    ∀ (pre post : List (MW Req)) (r : Req) (i : Nat),
      (∀ p ∈ pre, p.act = MWAct.callNext) →
      execFrom terminal (pre ++ m :: post) r i =
        (List.range' i (pre.length + 1),
          MWOutcome.halted
            (List.foldl (fun s mm => mm.mutate s) r (pre ++ [m]))) := by
  intro pre
  induction pre with
  | nil =>
    intro post r i _
    simp [execFrom, hm, List.range', List.foldl]
  | cons p rest ih =>
    intro post r i hall
    have hp : p.act = MWAct.callNext := hall p (by simp)
    have hrest : ∀ q ∈ rest, q.act = MWAct.callNext :=
      fun q hq => hall q (by simp [hq])
    simp only [List.cons_append, execFrom, hp, List.append_eq]
    rw [ih post (p.mutate r) (i + 1) hrest]
    simp [List.range', List.foldl]

theorem execFrom_throws {Req : Type} (terminal : Req → Req) (m : MW Req) (e : Nat)
    (hm : m.act = MWAct.throwErr e) :
    ∀ (pre post : List (MW Req)) (r : Req) (i : Nat),
      (∀ p ∈ pre, p.act = MWAct.callNext) →
      execFrom terminal (pre ++ m :: post) r i =
        (List.range' i (pre.length + 1),
          MWOutcome.failed e
            (List.foldl (fun s mm => mm.mutate s) r (pre ++ [m]))) := by
  intro pre
  induction pre with
  | nil =>
    intro post r i _
    simp [execFrom, hm, List.range', List.foldl]
  | cons p rest ih =>
    intro post r i hall
    have hp : p.act = MWAct.callNext := hall p (by simp)
    have hrest : ∀ q ∈ rest, q.act = MWAct.callNext :=
      fun q hq => hall q (by simp [hq])
    simp only [List.cons_append, execFrom, hp, List.append_eq]
    rw [ih post (p.mutate r) (i + 1) hrest]
    simp [List.range', List.foldl]

theorem execFrom_trace_shape {Req : Type} (terminal : Req → Req) :
    ∀ (mws : List (MW Req)) (r : Req) (i : Nat),
      ∃ k, k ≤ mws.length ∧
        (execFrom terminal mws r i).1 = List.range' i k := by
  intro mws
  induction mws with
  | nil =>
    intro r i
    exact ⟨0, Nat.le_refl 0, by simp [execFrom, List.range']⟩
  | cons m rest ih =>
    intro r i
    cases hact : m.act with
    | callNext =>
      obtain ⟨k, hk, htr⟩ := ih (m.mutate r) (i + 1)
      refine ⟨k + 1, by simpa using Nat.succ_le_succ hk, ?_⟩
      simp only [execFrom, hact]
      simp [htr, List.range']
    | halt =>
      exact ⟨1, by simp, by simp [execFrom, hact, List.range']⟩
    | throwErr e =>
      exact ⟨1, by simp, by simp [execFrom, hact, List.range']⟩

/-- C2. `executeMiddlewares(terminal)` runs the registered middlewares
strictly in registration order (`use` is a pure append, so registration
order is the order of the `use` calls): the indices that run are always an
initial prefix `0, 1, …` of the registered list; when every middleware
invokes its continuation they all run in order, each threading its
mutation of the shared request to the next, and `terminal` runs last over
the accumulated mutations; when a middleware withholds its continuation,
everything before it and it run, no later middleware runs, `terminal`
never runs, and the outcome is a silent halt, not an error. -/
theorem c2_middleware_chain_order {Req : Type} (terminal : Req → Req)
    (mws : List (MW Req)) (r : Req) :
    List.foldl use [] mws = mws ∧
    (∃ k, k ≤ mws.length ∧
      (executeMiddlewares terminal mws r).1 = List.range k) ∧
    ((∀ m ∈ mws, m.act = MWAct.callNext) →
      executeMiddlewares terminal mws r =
        (List.range mws.length,
          MWOutcome.completed
            (terminal (List.foldl (fun s m => m.mutate s) r mws)))) ∧
    (∀ pre m post, mws = pre ++ m :: post →
      (∀ p ∈ pre, p.act = MWAct.callNext) → m.act = MWAct.halt →
      executeMiddlewares terminal mws r =
        (List.range (pre.length + 1),
          MWOutcome.halted
            (List.foldl (fun s mm => mm.mutate s) r (pre ++ [m])))) := by
  refine ⟨by simpa using foldl_use_eq mws [], ?_, ?_, ?_⟩
  · obtain ⟨k, hk, htr⟩ := execFrom_trace_shape terminal mws r 0
    exact ⟨k, hk, by rw [List.range_eq_range']; exact htr⟩
  · intro hall
    rw [List.range_eq_range']
    exact execFrom_all_next terminal mws r 0 hall
  · intro pre m post hsplit hpre hm
    rw [List.range_eq_range']
    unfold executeMiddlewares
    rw [hsplit]
    exact execFrom_halts terminal m hm pre post r 0 hpre

/-- C2 witness: two continuation-calling middlewares run in order and the
terminal sees both mutations; a middleware that withholds its continuation
stops the chain before the third middleware and the terminal, with a
halted (non-error) outcome. -/
theorem c2_middleware_chain_order_witness :
    executeMiddlewares (fun r => r + 100)
      [MW.mk (fun r => r + 1) MWAct.callNext,
        MW.mk (fun r => r * 2) MWAct.callNext] 0 =
      ([0, 1], MWOutcome.completed 102) ∧
    executeMiddlewares (fun r => r + 100)
      [MW.mk (fun r => r + 1) MWAct.callNext,
        MW.mk (fun r => r * 2) MWAct.halt,
        MW.mk (fun r => r + 5) MWAct.callNext] 0 =
      ([0, 1], MWOutcome.halted 2) := by
  constructor
  · have h :=
      (c2_middleware_chain_order (fun r => r + 100)
        [MW.mk (fun r => r + 1) MWAct.callNext,
          MW.mk (fun r => r * 2) MWAct.callNext] 0).2.2.1
        (by intro m hm; rcases List.mem_cons.mp hm with rfl | hm2
            · rfl
            · rcases List.mem_cons.mp hm2 with rfl | hm3
              · rfl
              · simp at hm3)
    rw [h]
    rfl
  · have h :=
      (c2_middleware_chain_order (fun r => r + 100)
        [MW.mk (fun r => r + 1) MWAct.callNext,
          MW.mk (fun r => r * 2) MWAct.halt,
          MW.mk (fun r => r + 5) MWAct.callNext] 0).2.2.2
        [MW.mk (fun r => r + 1) MWAct.callNext]
        (MW.mk (fun r => r * 2) MWAct.halt)
        [MW.mk (fun r => r + 5) MWAct.callNext] rfl
        (by intro p hp; rcases List.mem_cons.mp hp with rfl | hp2
            · rfl
            · simp at hp2) rfl
    rw [h]
    rfl

/-- C8. If a middleware throws (after any prefix of middlewares that each
invoked their continuation), no later middleware and not the terminal
executes — the executed indices stop at the throwing middleware — and the
same error value surfaces unmodified as the outcome for the caller of
`executeMiddlewares`. -/
theorem c8_middleware_error_propagation {Req : Type} (terminal : Req → Req)
    (pre : List (MW Req)) (m : MW Req) (post : List (MW Req)) (r : Req)
    (e : Nat) (hpre : ∀ p ∈ pre, p.act = MWAct.callNext)
    (hm : m.act = MWAct.throwErr e) :
    executeMiddlewares terminal (pre ++ m :: post) r =
      (List.range (pre.length + 1),
        MWOutcome.failed e
          (List.foldl (fun s mm => mm.mutate s) r (pre ++ [m]))) := by
  rw [List.range_eq_range']
  exact execFrom_throws terminal m e hm pre post r 0 hpre

/-- C8 witness: a middleware that throws before calling its continuation
stops the chain — the following middleware and the terminal never run —
and its error value is the outcome. -/
theorem c8_middleware_error_propagation_witness :
    executeMiddlewares (fun r => r + 100)
      ([] ++ MW.mk (fun r => r + 1) (MWAct.throwErr 7) ::
        [MW.mk (fun r => r * 2) MWAct.callNext]) 0 =
      ([0], MWOutcome.failed 7 1) := by
  have h :=
    c8_middleware_error_propagation (fun r => r + 100) []
      (MW.mk (fun r => r + 1) (MWAct.throwErr 7))
      [MW.mk (fun r => r * 2) MWAct.callNext] 0 7 (by intro p hp; simp at hp)
      rfl
  rw [h]
  rfl

end Turbo
